import Mathlib

/-!
Verification of the activity-scoring bot (`update_active_users.py`).

The Python source is shallowly embedded:
* usernames are `String`, dates are `Int` (a calendar day index), counts are `Nat`,
  scores are `ℚ` (the Python floats, modelled exactly);
* a Python `dict` is an insertion-ordered association list (`dictSet` overwrites an
  existing key in place and appends a fresh key at the end, exactly like CPython);
* Python's `sorted(..., reverse=True)` on `(score, user)` tuples is a sort by the
  reversed lexicographic tuple order (`rankGe`); the elements are pairwise distinct
  (user keys are unique), so any correct sort produces the same list;
* the network fetch, the on-disk per-day cache and the opt-out page lookup are
  modelled as explicit function arguments / explicit state.
-/

abbrev User := String

abbrev Date := Int

/-- A day's per-user edit counts, `count_for_a_day`'s output shape. -/
abbrev DayCount := List (User × Nat)

/-- The `scores` dict of `exponential_smoothing`: insertion-ordered key/value pairs. -/
abbrev ScoreTable := List (User × ℚ)

/-- `d[u]` for the score dict (0 if absent; the source only reads present keys). -/
def dictGet : ScoreTable → User → ℚ
  | [], _ => 0
  | (k, v) :: rest, u => if k = u then v else dictGet rest u

/-- `d[u] = v` on a Python dict: overwrite in place, or append a fresh key. -/
def dictSet : ScoreTable → User → ℚ → ScoreTable
  | [], u, v => [(u, v)]
  | (k, w) :: rest, u, v =>
    if k = u then (k, v) :: rest else (k, w) :: dictSet rest u v

/-- The key list of the dict, in insertion order. -/
def keys (d : ScoreTable) : List User := d.map Prod.fst

/-- All users mentioned by any day of the window, with repetitions. -/
def windowUsers : List (Date × DayCount) → List User
  | [] => []
  | day :: rest => day.2.map Prod.fst ++ windowUsers rest

/-- Line 184 for one day: `scores.update(dict((user, 0) for user, _ in counts))`,
i.e. insert `user ↦ 0` for each pair of the day, in order. -/
def initDay (scores : ScoreTable) (counts : DayCount) : ScoreTable :=
  counts.foldl (fun s uc => dictSet s uc.1 0) scores

/-- Lines 181–184: the initialisation loop over all days. -/
def initScores (counts_by_dates : List (Date × DayCount)) : ScoreTable :=
  counts_by_dates.foldl (fun scores day => initDay scores day.2) []

/-- Lines 191–195: `for user, freq in counts: scores[user] = scores[user]*(1-α) + freq*α`. -/
def activeFold (α : ℚ) (scores : ScoreTable) (counts : DayCount) : ScoreTable :=
  counts.foldl
    (fun s uc => dictSet s uc.1 (dictGet s uc.1 * (1 - α) + (uc.2 : ℚ) * α)) scores

/-- Lines 196–197: `for user in inactive_users: scores[user] = scores[user]*(1-α)`. -/
def decayFold (α : ℚ) (scores : ScoreTable) (inactive : List User) : ScoreTable :=
  inactive.foldl (fun s u => dictSet s u (dictGet s u * (1 - α))) scores

/-- Lines 188–197: one iteration of the day loop.  `all_users` is
`set(scores.keys())` computed once before the loop; the iteration order of the
`inactive_users` set is unspecified in Python, but its updates touch pairwise
distinct keys, so any order yields the same dict; we fix the key order of
`all_users`. -/
def dayStep (α : ℚ) (all_users : List User) (scores : ScoreTable)
    (day : Date × DayCount) : ScoreTable :=
  decayFold α (activeFold α scores day.2)
    (all_users.filter (fun u => decide (u ∉ day.2.map Prod.fst)))

/-- The accumulator of `exponential_smoothing` after the last day (line 198). -/
def smoothTable (counts_by_dates : List (Date × DayCount)) (α : ℚ) : ScoreTable :=
  let scores0 := initScores counts_by_dates
  let all_users := keys scores0
  counts_by_dates.foldl (dayStep α all_users) scores0

/-- Reversed lexicographic order on `(score, user)` tuples: `a` comes no later
than `b` in `sorted(..., reverse=True)`.  String order is code-point
lexicographic, as in Python. -/
def rankGe (a b : ℚ × User) : Prop := b.1 < a.1 ∨ (b.1 = a.1 ∧ b.2 ≤ a.2)

instance : DecidableRel rankGe := fun a b =>
  inferInstanceAs (Decidable (b.1 < a.1 ∨ (b.1 = a.1 ∧ b.2 ≤ a.2)))

instance : IsTotal (ℚ × User) rankGe :=
  ⟨fun a b => by
    rcases lt_trichotomy a.1 b.1 with h | h | h
    · exact Or.inr (Or.inl h)
    · rcases le_total a.2 b.2 with h2 | h2
      · exact Or.inr (Or.inr ⟨h, h2⟩)
      · exact Or.inl (Or.inr ⟨h.symm, h2⟩)
    · exact Or.inl (Or.inl h)⟩

instance : IsTrans (ℚ × User) rankGe :=
  ⟨fun a b c hab hbc => by
    rcases hab with h1 | ⟨e1, u1⟩ <;> rcases hbc with h2 | ⟨e2, u2⟩
    · exact Or.inl (h2.trans h1)
    · exact Or.inl (e2.trans_lt h1)
    · exact Or.inl (h2.trans_eq e1)
    · exact Or.inr ⟨e2.trans e1, u2.trans u1⟩⟩

/-- Lines 199–202: `sorted(((score, user) ...), reverse=True)`.  The tuples have
pairwise distinct users, and `rankGe` is total, transitive and antisymmetric on
tuples with distinct users, so the stable `insertionSort` returns the same list
as Python's sort. -/
def sortDesc (l : List (ℚ × User)) : List (ℚ × User) := List.insertionSort rankGe l

/-- Lines 180–202: the whole of `exponential_smoothing`. -/
def exponential_smoothing (counts_by_dates : List (Date × DayCount))
    (smooth_factor : ℚ) : List (ℚ × User) :=
  sortDesc ((smoothTable counts_by_dates smooth_factor).map (fun p => (p.2, p.1)))

/-- The count recorded for `u` on a day, if `u` is active on it. -/
def countOf (u : User) : DayCount → Option Nat
  | [] => none
  | (k, c) :: rest => if k = u then some c else countOf u rest

/-- Per-user recurrence stated by the claim (spec §4.3 step 2): on a day where
`u` is active with count `c`, `s ↦ s*(1-α) + c*α`; on a day where `u` is not
active, `s ↦ s*(1-α)`. -/
def specStep (u : User) (α : ℚ) (s : ℚ) (day : Date × DayCount) : ℚ :=
  match countOf u day.2 with
  | some c => s * (1 - α) + (c : ℚ) * α
  | none => s * (1 - α)

/-- The claimed per-user score: start at 0 (spec §4.3 step 1) and fold the
recurrence over the chronologically ordered window. -/
def specScore (u : User) (α : ℚ) (counts_by_dates : List (Date × DayCount)) : ℚ :=
  counts_by_dates.foldl (specStep u α) 0

/-- Window of `k` days on which user `u` is active with the constant count `c`. -/
def constWindow (u : User) (c : Nat) (k : Nat) : List (Date × DayCount) :=
  (List.range k).map (fun (i : Nat) => ((i : Int), [(u, c)]))

/-- The scalar recurrence `s ↦ s*(1-α) + c*α` iterated `m` times from `s`. -/
def sIter (α : ℚ) (c : Nat) : ℚ → Nat → ℚ
  | s, 0 => s
  | s, m + 1 => sIter α c (s * (1 - α) + (c : ℚ) * α) m

/-- Line 11: `TIME_WINDOW = 15`. -/
def TIME_WINDOW : Nat := 15

/-- Line 12: `TOP_N = 15`. -/
def TOP_N : Nat := 15

/-- Line 13: `SMOOTH_FACTOR = 0.1`. -/
def SMOOTH_FACTOR : ℚ := 1 / 10

/-- Lines 40–45: the `scores_to_show` generator of `main`.  The blocked-user
list is the one fetched from the API; the opt-out regex test against the
user's profile page (a network lookup) is abstracted as a boolean predicate. -/
def scores_to_show (scores : List (ℚ × User)) (blocked_users : List User)
    (optedOut : User → Bool) : List (ℚ × User) :=
  scores.filter (fun su => decide (su.2 ∉ blocked_users) && !(optedOut su.2))

/-- Line 59: `zip(range(n), seq)` keeps exactly the first `n` entries of `seq`. -/
def topRows (l : List (ℚ × User)) (n : Nat) : List (ℚ × User) := l.take n

/-- The ranking rows that `main` renders into the wikitable. -/
def mainTopN (scores : List (ℚ × User)) (blocked_users : List User)
    (optedOut : User → Bool) : List (ℚ × User) :=
  topRows (scores_to_show scores blocked_users optedOut) TOP_N

/-- Lines 168–169: `range(window, 0, -1)`, i.e. `[window, window-1, ..., 1]`. -/
def rangeDown : Nat → List Nat
  | 0 => []
  | n + 1 => (n + 1) :: rangeDown n

/-- Lines 168–169: `enumerate_dates(today, window)`. -/
def enumerate_dates (today : Date) (window : Nat) : List Date :=
  (rangeDown window).map (fun (i : Nat) => today - (i : Int))

/-- A failure of the underlying change-log fetch (network/auth). -/
inductive FetchError where
  | network : FetchError
  | auth : FetchError
deriving DecidableEq

/-- A raw change entry as returned by the API, possibly with extra fields. -/
structure EditEvent where
  timestamp : String
  user : String
  type : String
  title : String
  extra : List (String × String)
deriving DecidableEq

/-- A persisted CSV row: exactly the four header columns (line 121). -/
structure Row where
  timestamp : String
  user : String
  type : String
  title : String
deriving DecidableEq

/-- `csv.DictWriter` with `extrasaction='ignore'`: keep the four header fields. -/
def toRow (e : EditEvent) : Row := ⟨e.timestamp, e.user, e.type, e.title⟩

/-- The cache directory: which dates have a persisted file, and its parsed rows. -/
def CacheState := Date → Option (List Row)

/-- Result of one `get_recent_changes` call: the returned rows or the propagated
fetch failure, the cache directory afterwards, and whether the underlying
fetch was invoked. -/
structure GetResult where
  result : Except FetchError (List Row)
  cache : CacheState
  fetched : Bool

/-- Lines 120–133: `Wiki.get_recent_changes`.  The fetch runs only when no file
for the date exists; the file is created only after the fetch returned, so a
failing fetch leaves the directory untouched.  Writing then re-reading the CSV
yields the four projected columns of each entry. -/
def get_recent_changes (fetch : Date → Except FetchError (List EditEvent))
    (cache : CacheState) (date : Date) : GetResult :=
  match cache date with
  | some rows => ⟨Except.ok rows, cache, false⟩
  | none =>
    match fetch date with
    | Except.error e => ⟨Except.error e, cache, true⟩
    | Except.ok entries =>
      let rows := entries.map toRow
      ⟨Except.ok rows, fun d => if d = date then some rows else cache d, true⟩

/-- A one-day cache used to instantiate the idempotence theorem. -/
def cacheWithDayZero : CacheState := fun d => if d = 0 then some [] else none

/-- A fetch that always fails, used to instantiate the idempotence theorem. -/
def failingFetch : Date → Except FetchError (List EditEvent) :=
  fun _ => Except.error FetchError.network

/-- An empty cache directory, used to instantiate the fetch-failure theorem. -/
def emptyCache : CacheState := fun _ => none

/-- The ordering asserted by the spec for the final ranking: descending by
score, and equal scores ordered by ascending (natural) user identifier. -/
def claimedRankOrder (l : List (ℚ × User)) : Prop :=
  l.Pairwise (fun a b => b.1 < a.1 ∨ (a.1 = b.1 ∧ a.2 < b.2))

/-- The ordering the code produces: descending by score, and equal scores
ordered by descending user identifier (`reverse=True` reverses both tuple
components). -/
def actualRankOrder (l : List (ℚ × User)) : Prop :=
  l.Pairwise (fun a b => b.1 < a.1 ∨ (a.1 = b.1 ∧ b.2 < a.2))

/-! ## Theorems -/

/-- Every element of `rangeDown n` lies in `[1, n]`. -/
theorem mem_rangeDown {i n : Nat} (hi : i ∈ rangeDown n) : 1 ≤ i ∧ i ≤ n := by
  induction n with
  | zero => cases hi
  | succ m ih =>
    rw [rangeDown] at hi
    rcases List.mem_cons.mp hi with h | h
    · omega
    · have := ih h
      omega

/-- C10: `enumerate_dates today W` is exactly the `W` consecutive calendar days
`today - W, …, today - 1` in ascending order; `today` itself is excluded. -/
theorem enumerate_dates_spec (today : Date) (window : Nat) :
    enumerate_dates today window
      = (List.range window).map (fun (j : Nat) => today - (window : Int) + (j : Int)) ∧
    (enumerate_dates today window).length = window ∧
    today ∉ enumerate_dates today window := by
  have key : ∀ (n : Nat) (t : Int),
      (rangeDown n).map (fun (i : Nat) => t - (i : Int))
        = (List.range n).map (fun (j : Nat) => t - (n : Int) + (j : Int)) := by
    intro n
    induction n with
    | zero => intro t; rfl
    | succ m ih =>
      intro t
      rw [List.range_succ_eq_map, List.map_cons, List.map_map]
      rw [rangeDown, List.map_cons, ih t]
      rw [List.cons.injEq]
      refine ⟨by push_cast; ring, ?_⟩
      · apply List.map_congr_left
        intro a _
        show t - (m : Int) + (a : Int) = t - ((m + 1 : Nat) : Int) + ((a + 1 : Nat) : Int)
        push_cast; ring
  refine ⟨key window today, ?_, ?_⟩
  · rw [enumerate_dates, key window today, List.length_map, List.length_range]
  · intro hmem
    rw [enumerate_dates, List.mem_map] at hmem
    obtain ⟨i, hi, heq⟩ := hmem
    have hipos : 1 ≤ i := (mem_rangeDown hi).1
    have h0 : today - (i : Int) = today := heq
    have h1 : (i : Int) = 0 := sub_eq_self.mp h0
    have h2 : i = 0 := Nat.cast_eq_zero.mp h1
    omega

/-- C8: once a persisted record for a date exists — whatever its content, even
empty — `get_recent_changes` returns the persisted rows, leaves the cache
unchanged and never invokes the underlying fetch. -/
theorem get_recent_changes_idempotent
    (fetch : Date → Except FetchError (List EditEvent)) (cache : CacheState)
    (date : Date) (rows : List Row) (h : cache date = some rows) :
    get_recent_changes fetch cache date = ⟨Except.ok rows, cache, false⟩ := by
  unfold get_recent_changes
  rw [h]

/-- Witness for C8: a cache holding an (empty) record for day 0 is served from
the cache even though every fetch attempt would fail. -/
theorem get_recent_changes_idempotent_witness :
    cacheWithDayZero 0 = some [] ∧
    get_recent_changes failingFetch cacheWithDayZero 0
      = ⟨Except.ok [], cacheWithDayZero, false⟩ :=
  ⟨rfl, get_recent_changes_idempotent failingFetch cacheWithDayZero 0 [] rfl⟩

/-- C9: when no record exists and the fetch fails, the call fails with that
`FetchError` and the cache directory is left exactly as it was — in particular
no (partial) file for the date exists afterwards. -/
theorem get_recent_changes_fetch_error
    (fetch : Date → Except FetchError (List EditEvent)) (cache : CacheState)
    (date : Date) (e : FetchError)
    (hmiss : cache date = none) (hfail : fetch date = Except.error e) :
    (get_recent_changes fetch cache date).result = Except.error e ∧
    (get_recent_changes fetch cache date).cache = cache ∧
    (get_recent_changes fetch cache date).cache date = none := by
  unfold get_recent_changes
  rw [hmiss, hfail]
  exact ⟨rfl, rfl, hmiss⟩

/-- Witness for C9: on an empty cache a failing fetch propagates the error and
writes nothing. -/
theorem get_recent_changes_fetch_error_witness :
    emptyCache 0 = none ∧ failingFetch 0 = Except.error FetchError.network ∧
    (get_recent_changes failingFetch emptyCache 0).result
        = Except.error FetchError.network ∧
    (get_recent_changes failingFetch emptyCache 0).cache = emptyCache ∧
    (get_recent_changes failingFetch emptyCache 0).cache 0 = none :=
  ⟨rfl, rfl, get_recent_changes_fetch_error failingFetch emptyCache 0
    FetchError.network rfl rfl⟩

/-- C4: a blocked user never appears among the rendered top-N rows, whatever
their score: the filter drops the entry before truncation. -/
theorem blocked_user_not_in_topN (scores : List (ℚ × User))
    (blocked_users : List User) (optedOut : User → Bool) (s : ℚ) (u : User)
    (hu : u ∈ blocked_users) :
    (s, u) ∉ mainTopN scores blocked_users optedOut := by
  intro hmem
  have h1 : (s, u) ∈ scores_to_show scores blocked_users optedOut :=
    List.take_sublist _ _ |>.subset hmem
  rw [scores_to_show, List.mem_filter] at h1
  have h2 := h1.2
  rw [Bool.and_eq_true, decide_eq_true_iff] at h2
  exact h2.1 hu

/-- Witness for C4: the blocked user `"b"` with the top score is absent from the
rendered rows. -/
theorem blocked_user_not_in_topN_witness :
    "b" ∈ ["b"] ∧ ((5 : ℚ), "b") ∉ mainTopN [(5, "b"), (1, "a")] ["b"] (fun _ => false) :=
  ⟨List.mem_singleton.mpr rfl,
    blocked_user_not_in_topN [(5, "b"), (1, "a")] ["b"] (fun _ => false) 5 "b"
      (List.mem_singleton.mpr rfl)⟩

/-- C5: truncation returns exactly `min n (number of surviving entries)` rows
and is a sublist of the filtered sequence — relative order kept, nothing
re-sorted or re-filtered. -/
theorem topRows_length_and_order (scores : List (ℚ × User))
    (blocked_users : List User) (optedOut : User → Bool) (n : Nat) :
    (topRows (scores_to_show scores blocked_users optedOut) n).length
      = min n (scores_to_show scores blocked_users optedOut).length ∧
    List.Sublist (topRows (scores_to_show scores blocked_users optedOut) n)
      (scores_to_show scores blocked_users optedOut) :=
  ⟨List.length_take n _, List.take_sublist n _⟩

/-! ## Dictionary lemmas -/

theorem keys_nil : keys [] = [] := rfl

theorem keys_cons (k : User) (v : ℚ) (d : ScoreTable) :
    keys ((k, v) :: d) = k :: keys d := rfl

theorem dictGet_dictSet_self (d : ScoreTable) (u : User) (v : ℚ) :
    dictGet (dictSet d u v) u = v := by
  induction d with
  | nil => simp [dictSet, dictGet]
  | cons p rest ih =>
    obtain ⟨k, w⟩ := p
    by_cases hk : k = u
    · subst hk; simp [dictSet, dictGet]
    · simp [dictSet, dictGet, hk, ih]

theorem dictGet_dictSet_ne (d : ScoreTable) {k u : User} (v : ℚ) (hne : k ≠ u) :
    dictGet (dictSet d k v) u = dictGet d u := by
  induction d with
  | nil => simp [dictSet, dictGet, hne]
  | cons p rest ih =>
    obtain ⟨k', w⟩ := p
    by_cases hk : k' = k
    · subst hk; simp [dictSet, dictGet, hne]
    · simp [dictSet, dictGet, hk, ih]

theorem dictSet_cons (k u : User) (w v : ℚ) (rest : ScoreTable) :
    dictSet ((k, w) :: rest) u v
      = if k = u then (k, v) :: rest else (k, w) :: dictSet rest u v := rfl

theorem countOf_cons (u k : User) (c : Nat) (rest : DayCount) :
    countOf u ((k, c) :: rest) = if k = u then some c else countOf u rest := rfl

theorem mem_keys_dictSet (d : ScoreTable) (k u : User) (v : ℚ) :
    u ∈ keys (dictSet d k v) ↔ u ∈ keys d ∨ u = k := by
  induction d with
  | nil => simp [dictSet, keys]
  | cons p rest ih =>
    obtain ⟨k', w⟩ := p
    by_cases hk : k' = k
    · subst hk
      rw [dictSet_cons, if_pos rfl, keys_cons, keys_cons]
      simp only [List.mem_cons]
      tauto
    · rw [dictSet_cons, if_neg hk, keys_cons, keys_cons]
      simp only [List.mem_cons, ih]
      tauto

theorem keys_dictSet_of_mem (d : ScoreTable) {k : User} (v : ℚ)
    (h : k ∈ keys d) : keys (dictSet d k v) = keys d := by
  induction d with
  | nil => cases h
  | cons p rest ih =>
    obtain ⟨k', w⟩ := p
    by_cases hk : k' = k
    · subst hk; simp [dictSet, keys_cons]
    · rw [keys_cons, List.mem_cons] at h
      rcases h with h | h
    
      · exact absurd h.symm hk
      · simp only [dictSet, if_neg hk, keys_cons, ih h]

theorem keys_dictSet_of_not_mem (d : ScoreTable) {k : User} (v : ℚ)
    (h : k ∉ keys d) : keys (dictSet d k v) = keys d ++ [k] := by
  induction d with
  | nil => simp [dictSet, keys]
  | cons p rest ih =>
    obtain ⟨k', w⟩ := p
    rw [keys_cons, List.mem_cons] at h
    push_neg at h
    have hk : k' ≠ k := fun he => h.1 he.symm
    simp only [dictSet, if_neg hk, keys_cons, ih h.2, List.cons_append]

theorem nodup_keys_dictSet (d : ScoreTable) (k : User) (v : ℚ)
    (h : (keys d).Nodup) : (keys (dictSet d k v)).Nodup := by
  by_cases hm : k ∈ keys d
  · rw [keys_dictSet_of_mem d v hm]; exact h
  · rw [keys_dictSet_of_not_mem d v hm]
    rw [List.nodup_append]
    exact ⟨h, List.nodup_singleton k, by simpa using hm⟩

theorem countOf_eq_none_iff (u : User) (counts : DayCount) :
    countOf u counts = none ↔ u ∉ counts.map Prod.fst := by
  induction counts with
  | nil => simp [countOf]
  | cons p rest ih =>
    obtain ⟨k, c⟩ := p
    rw [List.map_cons]
    by_cases hk : k = u
    · subst hk
      rw [countOf_cons, if_pos rfl]
      simp
    · have hk' : ¬u = k := fun h => hk h.symm
      rw [countOf_cons, if_neg hk, ih, List.mem_cons]
      tauto

/-! ## The initialisation loop -/

theorem initDay_nil (s : ScoreTable) : initDay s [] = s := rfl

theorem initDay_cons (s : ScoreTable) (k : User) (c : Nat) (rest : DayCount) :
    initDay s ((k, c) :: rest) = initDay (dictSet s k 0) rest := rfl

theorem dictGet_initDay (counts : DayCount) (s : ScoreTable)
    (h : ∀ x, dictGet s x = 0) : ∀ x, dictGet (initDay s counts) x = 0 := by
  induction counts generalizing s with
  | nil => exact h
  | cons p rest ih =>
    obtain ⟨k, c⟩ := p
    rw [initDay_cons]
    refine ih _ (fun x => ?_)
    by_cases hk : k = x
    · subst hk; rw [dictGet_dictSet_self]
    · rw [dictGet_dictSet_ne _ _ hk, h x]

theorem mem_keys_initDay (counts : DayCount) (s : ScoreTable) (u : User) :
    u ∈ keys (initDay s counts) ↔ u ∈ keys s ∨ u ∈ counts.map Prod.fst := by
  induction counts generalizing s with
  | nil => simp [initDay_nil]
  | cons p rest ih =>
    obtain ⟨k, c⟩ := p
    rw [initDay_cons, ih, mem_keys_dictSet]
    simp only [List.map_cons, List.mem_cons]
    tauto

theorem nodup_keys_initDay (counts : DayCount) (s : ScoreTable)
    (h : (keys s).Nodup) : (keys (initDay s counts)).Nodup := by
  induction counts generalizing s with
  | nil => exact h
  | cons p rest ih =>
    obtain ⟨k, c⟩ := p
    exact ih _ (nodup_keys_dictSet s k 0 h)

theorem dictGet_initScores (counts_by_dates : List (Date × DayCount)) (u : User) :
    dictGet (initScores counts_by_dates) u = 0 := by
  suffices h : ∀ (l : List (Date × DayCount)) (s : ScoreTable),
      (∀ x, dictGet s x = 0) →
      ∀ x, dictGet (l.foldl (fun scores day => initDay scores day.2) s) x = 0 by
    exact h counts_by_dates [] (fun _ => rfl) u
  intro l
  induction l with
  | nil => intro s h; exact h
  | cons day rest ih =>
    intro s h
    exact ih _ (dictGet_initDay day.2 s h)

theorem mem_keys_initScores (counts_by_dates : List (Date × DayCount)) (u : User) :
    u ∈ keys (initScores counts_by_dates) ↔ u ∈ windowUsers counts_by_dates := by
  suffices h : ∀ (l : List (Date × DayCount)) (s : ScoreTable),
      u ∈ keys (l.foldl (fun scores day => initDay scores day.2) s)
        ↔ u ∈ keys s ∨ u ∈ windowUsers l by
    rw [initScores, h counts_by_dates []]
    simp [keys_nil]
  intro l
  induction l with
  | nil => intro s; simp [windowUsers]
  | cons day rest ih =>
    intro s
    rw [List.foldl_cons, ih, mem_keys_initDay, windowUsers, List.mem_append]
    tauto

theorem nodup_keys_initScores (counts_by_dates : List (Date × DayCount)) :
    (keys (initScores counts_by_dates)).Nodup := by
  suffices h : ∀ (l : List (Date × DayCount)) (s : ScoreTable),
      (keys s).Nodup →
      (keys (l.foldl (fun scores day => initDay scores day.2) s)).Nodup by
    exact h counts_by_dates [] List.nodup_nil
  intro l
  induction l with
  | nil => intro s h; exact h
  | cons day rest ih =>
    intro s h
    exact ih _ (nodup_keys_initDay day.2 s h)

/-! ## The two folds of the day loop -/

theorem activeFold_cons (α : ℚ) (s : ScoreTable) (k : User) (c : Nat)
    (rest : DayCount) :
    activeFold α s ((k, c) :: rest)
      = activeFold α (dictSet s k (dictGet s k * (1 - α) + (c : ℚ) * α)) rest := rfl

theorem decayFold_cons (α : ℚ) (s : ScoreTable) (k : User) (rest : List User) :
    decayFold α s (k :: rest)
      = decayFold α (dictSet s k (dictGet s k * (1 - α))) rest := rfl

theorem dictGet_activeFold_not_mem (α : ℚ) (counts : DayCount) (s : ScoreTable)
    {u : User} (hu : u ∉ counts.map Prod.fst) :
    dictGet (activeFold α s counts) u = dictGet s u := by
  induction counts generalizing s with
  | nil => rfl
  | cons p rest ih =>
    obtain ⟨k, c⟩ := p
    rw [List.map_cons, List.mem_cons] at hu
    push_neg at hu
    rw [activeFold_cons, ih _ hu.2, dictGet_dictSet_ne _ _ (fun h => hu.1 h.symm)]

theorem dictGet_decayFold_not_mem (α : ℚ) (l : List User) (s : ScoreTable)
    {u : User} (hu : u ∉ l) :
    dictGet (decayFold α s l) u = dictGet s u := by
  induction l generalizing s with
  | nil => rfl
  | cons k rest ih =>
    rw [List.mem_cons] at hu
    push_neg at hu
    rw [decayFold_cons, ih _ hu.2, dictGet_dictSet_ne _ _ (fun h => hu.1 h.symm)]

theorem dictGet_activeFold_active (α : ℚ) (counts : DayCount) (s : ScoreTable)
    {u : User} {c : Nat} (hnd : (counts.map Prod.fst).Nodup)
    (hc : countOf u counts = some c) :
    dictGet (activeFold α s counts) u = dictGet s u * (1 - α) + (c : ℚ) * α := by
  induction counts generalizing s with
  | nil => cases hc
  | cons p rest ih =>
    obtain ⟨k, c0⟩ := p
    rw [List.map_cons, List.nodup_cons] at hnd
    by_cases hk : k = u
    · subst hk
      rw [countOf_cons, if_pos rfl, Option.some.injEq] at hc
      subst hc
      rw [activeFold_cons, dictGet_activeFold_not_mem α rest _ hnd.1,
        dictGet_dictSet_self]
    · rw [countOf_cons, if_neg hk] at hc
      rw [activeFold_cons, ih _ hnd.2 hc, dictGet_dictSet_ne _ _ hk]

theorem dictGet_decayFold_mem (α : ℚ) (l : List User) (s : ScoreTable)
    {u : User} (hnd : l.Nodup) (hu : u ∈ l) :
    dictGet (decayFold α s l) u = dictGet s u * (1 - α) := by
  induction l generalizing s with
  | nil => cases hu
  | cons k rest ih =>
    rw [List.nodup_cons] at hnd
    by_cases hk : k = u
    · subst hk
      rw [decayFold_cons, dictGet_decayFold_not_mem α rest _ hnd.1,
        dictGet_dictSet_self]
    · rcases List.mem_cons.mp hu with h | h
      · exact absurd h.symm hk
      · rw [decayFold_cons, ih _ hnd.2 h, dictGet_dictSet_ne _ _ hk]

theorem mem_keys_activeFold (α : ℚ) (counts : DayCount) (s : ScoreTable) (u : User) :
    u ∈ keys (activeFold α s counts) ↔ u ∈ keys s ∨ u ∈ counts.map Prod.fst := by
  induction counts generalizing s with
  | nil => simp [activeFold]
  | cons p rest ih =>
    obtain ⟨k, c⟩ := p
    rw [activeFold_cons, ih, mem_keys_dictSet, List.map_cons, List.mem_cons]
    tauto

theorem mem_keys_decayFold (α : ℚ) (l : List User) (s : ScoreTable) (u : User) :
    u ∈ keys (decayFold α s l) ↔ u ∈ keys s ∨ u ∈ l := by
  induction l generalizing s with
  | nil => simp [decayFold]
  | cons k rest ih =>
    rw [decayFold_cons, ih, mem_keys_dictSet, List.mem_cons]
    tauto

theorem nodup_keys_activeFold (α : ℚ) (counts : DayCount) (s : ScoreTable)
    (h : (keys s).Nodup) : (keys (activeFold α s counts)).Nodup := by
  induction counts generalizing s with
  | nil => exact h
  | cons p rest ih =>
    obtain ⟨k, c⟩ := p
    exact ih _ (nodup_keys_dictSet s k _ h)

theorem nodup_keys_decayFold (α : ℚ) (l : List User) (s : ScoreTable)
    (h : (keys s).Nodup) : (keys (decayFold α s l)).Nodup := by
  induction l generalizing s with
  | nil => exact h
  | cons k rest ih =>
    exact ih _ (nodup_keys_dictSet s k _ h)

/-! ## One day of the smoothing loop -/

theorem dictGet_dayStep (α : ℚ) (all_users : List User) (s : ScoreTable)
    (day : Date × DayCount) {u : User}
    (hnd : (day.2.map Prod.fst).Nodup) (hall : all_users.Nodup)
    (hu : u ∈ all_users) :
    dictGet (dayStep α all_users s day) u = specStep u α (dictGet s u) day := by
  rw [dayStep, specStep]
  cases hc : countOf u day.2 with
  | some c =>
    have hmem : u ∈ day.2.map Prod.fst := by
      by_contra hmem
      rw [← countOf_eq_none_iff] at hmem
      rw [hc] at hmem
      cases hmem
    have hnotin : u ∉ all_users.filter (fun v => decide (v ∉ day.2.map Prod.fst)) := by
      intro hin
      have := (List.mem_filter.mp hin).2
      rw [decide_eq_true_iff] at this
      exact this hmem
    rw [dictGet_decayFold_not_mem α _ _ hnotin, dictGet_activeFold_active α _ _ hnd hc]
  | none =>
    have hmem : u ∉ day.2.map Prod.fst := (countOf_eq_none_iff u day.2).mp hc
    have hin : u ∈ all_users.filter (fun v => decide (v ∉ day.2.map Prod.fst)) :=
      List.mem_filter.mpr ⟨hu, by rw [decide_eq_true_iff]; exact hmem⟩
    rw [dictGet_decayFold_mem α _ _ (hall.filter _) hin,
      dictGet_activeFold_not_mem α _ _ hmem]

theorem mem_keys_dayStep (α : ℚ) (all_users : List User) (s : ScoreTable)
    (day : Date × DayCount) (u : User) :
    u ∈ keys (dayStep α all_users s day)
      ↔ u ∈ keys s ∨ u ∈ day.2.map Prod.fst
          ∨ u ∈ all_users.filter (fun v => decide (v ∉ day.2.map Prod.fst)) := by
  rw [dayStep, mem_keys_decayFold, mem_keys_activeFold]
  tauto

theorem nodup_keys_dayStep (α : ℚ) (all_users : List User) (s : ScoreTable)
    (day : Date × DayCount) (h : (keys s).Nodup) :
    (keys (dayStep α all_users s day)).Nodup :=
  nodup_keys_decayFold α _ _ (nodup_keys_activeFold α _ _ h)

/-! ## The fold over all days -/

theorem mem_windowUsers_of_mem_day {day : Date × DayCount}
    {l : List (Date × DayCount)} (hd : day ∈ l) {y : User}
    (hy : y ∈ day.2.map Prod.fst) : y ∈ windowUsers l := by
  induction l with
  | nil => cases hd
  | cons d rest ih =>
    rw [windowUsers, List.mem_append]
    rcases List.mem_cons.mp hd with h | h
    · subst h; exact Or.inl hy
    · exact Or.inr (ih h)

theorem dictGet_foldl_dayStep (α : ℚ) (all_users : List User)
    (l : List (Date × DayCount)) (s : ScoreTable) {u : User}
    (hnd : ∀ day ∈ l, (day.2.map Prod.fst).Nodup) (hall : all_users.Nodup)
    (hu : u ∈ all_users) :
    dictGet (l.foldl (dayStep α all_users) s) u
      = l.foldl (specStep u α) (dictGet s u) := by
  induction l generalizing s with
  | nil => rfl
  | cons day rest ih =>
    rw [List.foldl_cons, List.foldl_cons,
      ih _ (fun d hd => hnd d (List.mem_cons.mpr (Or.inr hd))),
      dictGet_dayStep α all_users s day (hnd day (List.mem_cons_self day rest)) hall hu]

theorem mem_keys_foldl_dayStep (α : ℚ) (all_users : List User)
    (l : List (Date × DayCount)) (s : ScoreTable)
    (hsub : ∀ day ∈ l, ∀ y ∈ day.2.map Prod.fst, y ∈ keys s)
    (hall : ∀ y ∈ all_users, y ∈ keys s) (u : User) :
    u ∈ keys (l.foldl (dayStep α all_users) s) ↔ u ∈ keys s := by
  induction l generalizing s with
  | nil => exact Iff.rfl
  | cons day rest ih =>
    have hstep : ∀ x, x ∈ keys (dayStep α all_users s day) ↔ x ∈ keys s := by
      intro x
      rw [mem_keys_dayStep]
      constructor
      · rintro (h | h | h)
        · exact h
        · exact hsub day (List.mem_cons_self day rest) x h
        · exact hall x (List.mem_filter.mp h).1
      · exact fun h => Or.inl h
    rw [List.foldl_cons,
      ih _ (fun d hd y hy => (hstep y).mpr
        (hsub d (List.mem_cons.mpr (Or.inr hd)) y hy))
      (fun y hy => (hstep y).mpr (hall y hy)),
      hstep]

theorem nodup_keys_foldl_dayStep (α : ℚ) (all_users : List User)
    (l : List (Date × DayCount)) (s : ScoreTable) (h : (keys s).Nodup) :
    (keys (l.foldl (dayStep α all_users) s)).Nodup := by
  induction l generalizing s with
  | nil => exact h
  | cons day rest ih =>
    exact ih _ (nodup_keys_dayStep α all_users s day h)

/-- The central characterisation of the smoothing fold: for every user of the
window, the value stored in the final dict follows the per-user recurrence
folded over the days, starting from 0. -/
theorem smoothTable_value (counts_by_dates : List (Date × DayCount)) (α : ℚ)
    (hnd : ∀ day ∈ counts_by_dates, (day.2.map Prod.fst).Nodup) {u : User}
    (hu : u ∈ windowUsers counts_by_dates) :
    dictGet (smoothTable counts_by_dates α) u = specScore u α counts_by_dates := by
  rw [smoothTable, specScore]
  rw [dictGet_foldl_dayStep α _ counts_by_dates _ hnd
    (nodup_keys_initScores counts_by_dates)
    ((mem_keys_initScores counts_by_dates u).mpr hu)]
  rw [dictGet_initScores]

/-- C1: for every user seen in the window, the score returned by the engine is
the claim's fold: start at 0, then day by day apply
`score*(1-α) + count*α` when active and `score*(1-α)` when not active.
(Users not yet seen hold score 0, and decaying 0 leaves 0, so decaying the
whole user set — as the code does — realises the claim's fold.) -/
theorem smoothTable_follows_claimed_fold (counts_by_dates : List (Date × DayCount))
    (α : ℚ) (hnd : ∀ day ∈ counts_by_dates, (day.2.map Prod.fst).Nodup)
    (u : User) (hu : u ∈ windowUsers counts_by_dates) :
    dictGet (smoothTable counts_by_dates α) u = specScore u α counts_by_dates :=
  smoothTable_value counts_by_dates α hnd hu

/-- Witness for C1, on the spec's own worked scenario (§8): two days,
`{alice: 4}` then `{bob: 2}`, α = 1/2. -/
theorem smoothTable_follows_claimed_fold_witness :
    (∀ day ∈ [((0 : Date), [("alice", 4)]), ((1 : Date), [("bob", 2)])],
      (day.2.map (Prod.fst : User × Nat → User)).Nodup) ∧
    "alice" ∈ windowUsers [((0 : Date), [("alice", 4)]), ((1 : Date), [("bob", 2)])] ∧
    dictGet (smoothTable [((0 : Date), [("alice", 4)]), ((1 : Date), [("bob", 2)])] (1/2)) "alice"
      = specScore "alice" (1/2) [((0 : Date), [("alice", 4)]), ((1 : Date), [("bob", 2)])] :=
  ⟨by decide, by decide,
    smoothTable_follows_claimed_fold
      [((0 : Date), [("alice", 4)]), ((1 : Date), [("bob", 2)])] (1/2)
      (by decide) "alice" (by decide)⟩

/-- C7: the final score dict has no duplicate users, and its key set is exactly
the set of users appearing in some day of the window. -/
theorem smoothTable_one_entry_per_user (counts_by_dates : List (Date × DayCount))
    (α : ℚ) :
    (keys (smoothTable counts_by_dates α)).Nodup ∧
    ∀ u, (u ∈ keys (smoothTable counts_by_dates α)
      ↔ u ∈ windowUsers counts_by_dates) := by
  constructor
  · rw [smoothTable]
    exact nodup_keys_foldl_dayStep _ _ _ _ (nodup_keys_initScores counts_by_dates)
  · intro u
    rw [smoothTable]
    rw [mem_keys_foldl_dayStep _ _ counts_by_dates _
      (fun d hd y hy => (mem_keys_initScores counts_by_dates y).mpr
        (mem_windowUsers_of_mem_day hd hy))
      (fun y hy => hy) u]
    exact mem_keys_initScores counts_by_dates u

/-! ## The constant-activity window (C6) -/

theorem constWindow_day_counts {u : User} {c k : Nat}
    {day : Date × DayCount} (hd : day ∈ constWindow u c k) : day.2 = [(u, c)] := by
  rw [constWindow, List.mem_map] at hd
  obtain ⟨i, _, rfl⟩ := hd
  rfl

theorem constWindow_nodup (u : User) (c k : Nat) :
    ∀ day ∈ constWindow u c k, (day.2.map Prod.fst).Nodup := by
  intro day hd
  rw [constWindow_day_counts hd]
  exact List.nodup_singleton u

theorem mem_windowUsers_constWindow (u : User) (c k : Nat) :
    u ∈ windowUsers (constWindow u c (k + 1)) := by
  refine @mem_windowUsers_of_mem_day ((0 : Date), [(u, c)]) _ ?_ u ?_
  · rw [constWindow, List.mem_map]
    exact ⟨0, List.mem_range.mpr (Nat.succ_pos k), rfl⟩
  · simp

theorem specScore_constWindow (u : User) (c : Nat) (α : ℚ) (k : Nat) :
    specScore u α (constWindow u c k) = sIter α c 0 k := by
  have hcount : ∀ day ∈ constWindow u c k, countOf u day.2 = some c := by
    intro day hd
    rw [constWindow_day_counts hd, countOf_cons, if_pos rfl]
  have key : ∀ (l : List (Date × DayCount)),
      (∀ day ∈ l, countOf u day.2 = some c) →
      ∀ s, l.foldl (specStep u α) s = sIter α c s l.length := by
    intro l
    induction l with
    | nil => intro _ s; rfl
    | cons day rest ih =>
      intro h s
      rw [List.foldl_cons, List.length_cons]
      rw [show specStep u α s day = s * (1 - α) + (c : ℚ) * α by
        rw [specStep, h day (List.mem_cons_self day rest)]]
      exact ih (fun d hd => h d (List.mem_cons.mpr (Or.inr hd))) _
  rw [specScore, key _ hcount 0, constWindow, List.length_map, List.length_range]

theorem smoothTable_constWindow (u : User) (c : Nat) (α : ℚ) (k : Nat) :
    dictGet (smoothTable (constWindow u c k) α) u = sIter α c 0 k := by
  cases k with
  | zero => rfl
  | succ m =>
    rw [smoothTable_value _ α (constWindow_nodup u c (m + 1))
      (mem_windowUsers_constWindow u c m), specScore_constWindow]

theorem sIter_succ_eq (α : ℚ) (c : Nat) :
    ∀ (m : Nat) (s : ℚ), sIter α c s (m + 1) = sIter α c s m * (1 - α) + (c : ℚ) * α := by
  intro m
  induction m with
  | zero => intro s; rfl
  | succ m ih =>
    intro s
    calc sIter α c s (m + 2)
        = sIter α c (s * (1 - α) + (c : ℚ) * α) (m + 1) := rfl
      _ = sIter α c (s * (1 - α) + (c : ℚ) * α) m * (1 - α) + (c : ℚ) * α := ih _
      _ = sIter α c s (m + 1) * (1 - α) + (c : ℚ) * α := rfl

theorem sIter_lt_count {α : ℚ} {c : Nat} (_hα0 : 0 < α) (hα1 : α < 1)
    (hc : 0 < c) : ∀ m, sIter α c 0 m < (c : ℚ) := by
  intro m
  induction m with
  | zero =>
    show (0 : ℚ) < (c : ℚ)
    exact_mod_cast hc
  | succ m ih =>
    rw [sIter_succ_eq]
    have h1 : sIter α c 0 m * (1 - α) < (c : ℚ) * (1 - α) :=
      mul_lt_mul_of_pos_right ih (by linarith)
    nlinarith

theorem sIter_strict_mono {α : ℚ} {c : Nat} (hα0 : 0 < α) (hα1 : α < 1)
    (hc : 0 < c) : ∀ m, sIter α c 0 m < sIter α c 0 (m + 1) := by
  intro m
  rw [sIter_succ_eq]
  have h := sIter_lt_count hα0 hα1 hc m
  nlinarith [mul_pos hα0 (sub_pos.mpr h)]

/-- C6: a user active on every day of the window with the same count `c` keeps
a score strictly below `c`, and the score after each longer window is strictly
larger than after the previous one, for every α in (0,1). -/
theorem const_activity_score_strictly_increasing (u : User) (c : Nat) (α : ℚ)
    (k : Nat) (hα0 : 0 < α) (hα1 : α < 1) (hc : 0 < c) :
    dictGet (smoothTable (constWindow u c k) α) u < (c : ℚ) ∧
    dictGet (smoothTable (constWindow u c k) α) u
      < dictGet (smoothTable (constWindow u c (k + 1)) α) u := by
  rw [smoothTable_constWindow, smoothTable_constWindow]
  exact ⟨sIter_lt_count hα0 hα1 hc k, sIter_strict_mono hα0 hα1 hc k⟩

/-- Witness for C6 at `c = 1`, `α = 1/2`, after 2 days. -/
theorem const_activity_score_strictly_increasing_witness :
    (0 : ℚ) < 1/2 ∧ (1/2 : ℚ) < 1 ∧ 0 < 1 ∧
    (dictGet (smoothTable (constWindow "x" 1 2) (1/2)) "x" < ((1 : Nat) : ℚ) ∧
     dictGet (smoothTable (constWindow "x" 1 2) (1/2)) "x"
       < dictGet (smoothTable (constWindow "x" 1 (2 + 1)) (1/2)) "x") :=
  ⟨by norm_num, by norm_num, Nat.one_pos,
    const_activity_score_strictly_increasing "x" 1 (1/2) 2
      (by norm_num) (by norm_num) Nat.one_pos⟩

/-! ## The final sort (C2) -/

theorem nodup_keys_smoothTable (counts_by_dates : List (Date × DayCount)) (α : ℚ) :
    (keys (smoothTable counts_by_dates α)).Nodup := by
  rw [smoothTable]
  exact nodup_keys_foldl_dayStep _ _ _ _ (nodup_keys_initScores counts_by_dates)

/-- Counterexample to C2: two users tied at score 1/2 come out as
`[(1/2, "b"), (1/2, "a")]` — the tie is broken by *descending* user order, so
the claimed ascending tie-break fails on this input. -/
theorem ranking_tie_order_cex :
    exponential_smoothing [((0 : Date), [("a", 1), ("b", 1)])] (1/2)
      = [((1 : ℚ)/2, "b"), ((1 : ℚ)/2, "a")] ∧
    ¬ claimedRankOrder
      (exponential_smoothing [((0 : Date), [("a", 1), ("b", 1)])] (1/2)) := by
  have hab : ("a" : String) ≠ "b" := by decide
  have hba : ¬ ((['b'] : List Char) ≤ ['a']) := by decide
  have heval : exponential_smoothing [((0 : Date), [("a", 1), ("b", 1)])] (1/2)
      = [((1 : ℚ)/2, "b"), ((1 : ℚ)/2, "a")] := by
    norm_num [exponential_smoothing, smoothTable, initScores, initDay, dayStep,
      activeFold, decayFold, dictSet, dictGet, keys, sortDesc, List.insertionSort,
      List.orderedInsert, rankGe, String.le_iff_toList_le, hab, hba]
  refine ⟨heval, ?_⟩
  rw [heval, claimedRankOrder]
  intro h
  have h2 := (List.pairwise_cons.mp h).1 ((1 : ℚ)/2, "a") (List.mem_singleton.mpr rfl)
  rcases h2 with h3 | ⟨-, h4⟩
  · exact lt_irrefl _ h3
  · rw [String.lt_iff_toList_lt] at h4
    exact absurd h4 (by decide)

/-- C2 amended: the ranking is sorted descending by score, and entries with
equal scores are ordered by *descending* user identifier (Python's
`sorted(reverse=True)` reverses the whole tuple order). -/
theorem ranking_sorted_desc (counts_by_dates : List (Date × DayCount)) (α : ℚ) :
    actualRankOrder (exponential_smoothing counts_by_dates α) := by
  have hsorted : List.Pairwise rankGe (exponential_smoothing counts_by_dates α) :=
    List.sorted_insertionSort rankGe _
  have hperm : List.Perm (exponential_smoothing counts_by_dates α)
      ((smoothTable counts_by_dates α).map (fun p => (p.2, p.1))) :=
    List.perm_insertionSort rankGe _
  have hkeys : ((smoothTable counts_by_dates α).map
      (fun p => (p.2, p.1))).map Prod.snd = keys (smoothTable counts_by_dates α) := by
    rw [List.map_map]
    rfl
  have hnodup : ((exponential_smoothing counts_by_dates α).map Prod.snd).Nodup :=
    ((hperm.map Prod.snd).symm).nodup
      (hkeys ▸ nodup_keys_smoothTable counts_by_dates α)
  have hne : (exponential_smoothing counts_by_dates α).Pairwise
      (fun a b => a.2 ≠ b.2) := List.pairwise_map.mp hnodup
  rw [actualRankOrder]
  refine (hsorted.and hne).imp ?_
  rintro a b ⟨hge | ⟨heq, hle⟩, hne2⟩
  · exact Or.inl hge
  · exact Or.inr ⟨heq.symm, lt_of_le_of_ne hle (Ne.symm hne2)⟩

/-! ## Configuration constants (C3) -/

/-- Counterexample to C3: the smoothing factor 2 lies outside (0,1), yet the
engine happily computes a ranking with it — nothing in the program rejects an
out-of-range configuration, there is no validation step at all. -/
theorem invalid_factor_processed_cex :
    ¬ (0 < (2 : ℚ) ∧ (2 : ℚ) < 1) ∧
    exponential_smoothing [((0 : Date), [("a", 1)])] 2 = [((2 : ℚ), "a")] := by
  constructor
  · rintro ⟨-, h⟩
    linarith
  · norm_num [exponential_smoothing, smoothTable, initScores, initDay, dayStep,
      activeFold, decayFold, dictSet, dictGet, keys, sortDesc, List.insertionSort,
      List.orderedInsert, rankGe]

/-- C3 amended: the configuration is hard-coded constants that do satisfy the
constraints (α = 0.1 ∈ (0,1), window 15 > 0, top-N 15 > 0); the program
performs no validation and raises no `ConfigurationError` — an out-of-range
smoothing factor such as 3/2 is processed into a normal ranking. -/
theorem config_constants_in_range_no_validation :
    (0 < SMOOTH_FACTOR ∧ SMOOTH_FACTOR < 1) ∧ 0 < TIME_WINDOW ∧ 0 < TOP_N ∧
    exponential_smoothing [((0 : Date), [("a", 1)])] (3/2) = [((3 : ℚ)/2, "a")] := by
  refine ⟨⟨?_, ?_⟩, ?_, ?_, ?_⟩
  · rw [SMOOTH_FACTOR]; norm_num
  · rw [SMOOTH_FACTOR]; norm_num
  · rw [TIME_WINDOW]; norm_num
  · rw [TOP_N]; norm_num
  · norm_num [exponential_smoothing, smoothTable, initScores, initDay, dayStep,
      activeFold, decayFold, dictSet, dictGet, keys, sortDesc, List.insertionSort,
      List.orderedInsert, rankGe]
